import Mathlib

/-!
Verification of the symbolic pipeline in `DopplerExpansion.ipynb`
(repository `rodluger/rmrevolutions`).

The notebook manipulates sympy expressions that are, throughout the whole
pipeline, finite linear combinations of monomials `x^i * y^j * s^k` where
`s` abbreviates the radical `sqrt(1 - x^2 - y^2)` (kept opaque by sympy and
only ever substituted structurally).  We therefore embed a symbolic
expression as its (finitely supported, by construction) coefficient
function `Mono → ℝ`, with `Mono = (i, j, k)` the exponent triple.
Addition of expressions is pointwise addition of coefficient functions and
multiplication by a constant is pointwise scaling, exactly matching how
sympy collects such linear combinations.  The structural operations used by
the notebook (`.coeff`, `.subs(sqrt(1-x^2-y^2), 0)`, `.subs(x, 0)`,
`.subs(y, 0)`) are embedded as the corresponding operations on coefficient
functions.

sympy's `factorial` on exact `Rational` arguments is the Gamma function
`factorial(q) = Γ(q + 1)`, which at negative-integer arguments is sympy's
complex infinity `zoo`, and a finite value divided by `zoo` is `0`.
Mathlib's `Real.Gamma` takes the junk value `0` at nonpositive integers and
Lean division by `0` is `0`, so `Real.Gamma (q + 1)` placed in the
denominator reproduces sympy's "invalid factorial gives a zero ratio"
behaviour exactly; this is the embedding used for the `try/except` guarded
ratio in `SB` (the `except ValueError` branch is unreachable for sympy
`Rational` inputs, the zero really arises from the `zoo` denominator).
-/

namespace RMRev

open Real Finset Matrix

/-- Exponent triple `(i, j, k)` of a monomial `x^i * y^j * s^k`,
where `s = sqrt(1 - x^2 - y^2)`. -/
abbrev Mono : Type := ℕ × ℕ × ℕ

/-- A symbolic expression of the notebook: the coefficient function of a
finite linear combination of monomials `x^i * y^j * s^k`. -/
abbrev Poly : Type := Mono → ℝ

/-- The expression `c * x^i * y^j * s^k` (a single scaled monomial). -/
def monoP (t : Mono) (c : ℝ) : Poly := fun v => if v = t then c else 0

/-- A constant expression. -/
def constPoly (c : ℝ) : Poly := monoP (0, 0, 0) c

/-- Structural substitution `sqrt(1 - x^2 - y^2) -> 0`: every monomial with a
positive power of `s` is dropped. -/
def subsS0 (e : Poly) : Poly := fun v => if v.2.2 = 0 then e v else 0

/-- Structural substitution `x -> 0`. -/
def subsX0 (e : Poly) : Poly := fun v => if v.1 = 0 then e v else 0

/-- Structural substitution `y -> 0`. -/
def subsY0 (e : Poly) : Poly := fun v => if v.2.1 = 0 then e v else 0

/-- sympy's `expression.coeff(term)` for a (monic) monomial `term`:
each additive part of `expression` divisible by the monomial contributes
its cofactor, so the result is the shifted coefficient function.  (sympy
additionally drops a few of these cofactors, namely those still containing
`term` itself as a factor; since every cofactor other than the constant one
is zeroed by the substitutions in `Coefficient` below, that finer filter is
irrelevant to every use in the notebook and is not modelled.) -/
def coeffShift (e : Poly) (t : Mono) : Poly := fun v => e (v + t)

/-- The notebook's `Coefficient(expression, term)`: take `expression.coeff(term)`
and then set `sqrt(1 - x^2 - y^2)`, `x` and `y` to zero in the result, so that a
partial match contributes nothing. -/
def Coefficient (e : Poly) (t : Mono) : Poly :=
  subsY0 (subsX0 (subsS0 (coeffShift e t)))

/-- Exponent triple of the `n`-th polynomial basis term, following
`poly_basis`: `l = floor(sqrt(n))`, `m = n - l^2 - l`, `mu = l - m`,
`nu = l + m`; for even `nu` the term is `x^(mu/2) * y^(nu/2)`, otherwise
`x^((mu-1)/2) * y^((nu-1)/2) * sqrt(1 - x^2 - y^2)`. -/
def pbMono (n : ℕ) : Mono :=
  let l : ℤ := Nat.sqrt n
  let m : ℤ := (n : ℤ) - l * l - l
  let mu : ℤ := l - m
  let nu : ℤ := l + m
  if nu % 2 = 0 then ((mu / 2).toNat, (nu / 2).toNat, 0)
  else (((mu - 1) / 2).toNat, ((nu - 1) / 2).toNat, 1)

/-- The notebook's `poly_basis(n, x, y)`: the `n`-th polynomial basis term,
as an expression. -/
def poly_basis (n : ℕ) : Poly := monoP (pbMono n) 1

/-- The notebook's `SA(l, m)`: the spherical harmonic normalization constant
`sqrt((2 - delta_{m,0}) * (2l + 1) * (l - m)! / (4 * pi * (l + m)!))`. -/
noncomputable def SA (l m : ℕ) : ℝ :=
  Real.sqrt ((2 - (if m = 0 then 1 else 0)) * (2 * l + 1) * (Nat.factorial (l - m)) /
    (4 * π * (Nat.factorial (l + m))))

/-- sympy's `factorial` on an exact rational argument: `Γ(x + 1)`.
At a negative integer `x` sympy yields the infinity `zoo` and a finite
value divided by `zoo` is `0`; Mathlib's `Real.Gamma` is `0` at nonpositive
integers and division by `0` is `0`, giving the same ratios. -/
noncomputable def sfact (x : ℝ) : ℝ := Real.Gamma (x + 1)

/-- The notebook's `SB(l, m, j, k)`: `2^l * m! / (j! k! (m-j)! (l-m-k)!)`
times the guarded ratio `factorial((l+m+k-1)/2) / factorial((-l+m+k-1)/2)`. -/
noncomputable def SB (l m j k : ℕ) : ℝ :=
  2 ^ l * ((Nat.factorial m : ℝ) /
      ((Nat.factorial j : ℝ) * (Nat.factorial k) * (Nat.factorial (m - j)) *
        (Nat.factorial (l - m - k)))) *
    (sfact (((l : ℝ) + m + k - 1) / 2) / sfact ((-(l : ℝ) + m + k - 1) / 2))

/-- The notebook's `SC(p, q, k)`: the binomial theorem coefficient
`factorial(k/2) / (factorial(q/2) * factorial((k-p)/2) * factorial((p-q)/2))`
with exact rational halves. -/
noncomputable def SC (p q k : ℕ) : ℝ :=
  sfact ((k : ℝ) / 2) /
    (sfact ((q : ℝ) / 2) * sfact (((k : ℝ) - p) / 2) * sfact (((p : ℝ) - q) / 2))

/-- Rational value of the guarded factorial ratio in `SB`: with
`b = (-l+m+k-1)/2` the ratio `factorial(b + l) / factorial(b)` is the rising
product `(b+1)(b+2)...(b+l)`, which is also `0` exactly when the denominator
factorial argument is a negative integer (see `SB_eq_SBq`). -/
def ratioQ (l m k : ℕ) : ℚ :=
  ∏ i ∈ Finset.range l, ((-(l : ℚ) + m + k - 1) / 2 + 1 + i)

/-- Rational value of `SB` (proved equal to `SB` in `SB_eq_SBq`). -/
def SBq (l m j k : ℕ) : ℚ :=
  2 ^ l * ((Nat.factorial m : ℚ) /
      ((Nat.factorial j : ℚ) * (Nat.factorial k) * (Nat.factorial (m - j)) *
        (Nat.factorial (l - m - k)))) * ratioQ l m k

/-- Rational value of `SC` at even arguments (proved equal to `SC` in
`SC_eq_SCq`). -/
def SCq (p q k : ℕ) : ℚ :=
  (Nat.factorial (k / 2) : ℚ) /
    ((Nat.factorial (q / 2) : ℚ) * (Nat.factorial ((k - p) / 2)) *
      (Nat.factorial ((p - q) / 2)))

theorem Gamma_add_nat (x : ℝ) (n : ℕ) (h : ∀ i ∈ Finset.range n, x + i ≠ 0) :
    Real.Gamma (x + n) = Real.Gamma x * ∏ i ∈ Finset.range n, (x + i) := by
  induction n with
  | zero => simp
  | succ n ih =>
      have hx : ∀ i ∈ Finset.range n, x + i ≠ 0 := fun i hi =>
        h i (Finset.mem_range.mpr (Nat.lt_succ_of_lt (Finset.mem_range.mp hi)))
      have hxn : x + n ≠ 0 := h n (Finset.mem_range.mpr (Nat.lt_succ_self n))
      have : x + (n + 1 : ℕ) = (x + n) + 1 := by push_cast; ring
      rw [this, Real.Gamma_add_one hxn, ih hx, Finset.prod_range_succ]
      ring

theorem Gamma_ratio_eq_prod (x : ℝ) (l : ℕ) (hpos : 0 < x + l) :
    Real.Gamma (x + l) / Real.Gamma x = ∏ i ∈ Finset.range l, (x + i) := by
  by_cases hzero : ∀ i ∈ Finset.range l, x + i ≠ 0
  · have hG : Real.Gamma x ≠ 0 := by
      intro h0
      obtain ⟨n, hn⟩ := (Real.Gamma_eq_zero_iff x).mp h0
      rcases lt_or_ge n l with hlt | hge
      · exact hzero n (Finset.mem_range.mpr hlt) (by rw [hn]; ring)
      · have hnl : (l : ℝ) ≤ n := by exact_mod_cast hge
        rw [hn] at hpos; linarith
    rw [Gamma_add_nat x l hzero]
    field_simp
  · push_neg at hzero
    obtain ⟨i, hi, hxi⟩ := hzero
    have h0 : Real.Gamma x = 0 := by
      have hx : x = -(i : ℝ) := by linarith
      rw [hx]; exact Real.Gamma_neg_nat_eq_zero i
    rw [h0, div_zero]
    exact (Finset.prod_eq_zero hi hxi).symm

theorem sfact_ratio (l m k : ℕ) :
    sfact (((l : ℝ) + m + k - 1) / 2) / sfact ((-(l : ℝ) + m + k - 1) / 2)
      = (ratioQ l m k : ℝ) := by
  have h1 : (((l : ℝ) + m + k - 1) / 2) + 1 = ((-(l : ℝ) + m + k - 1) / 2 + 1) + l := by
    ring
  have hpos : 0 < ((-(l : ℝ) + m + k - 1) / 2 + 1) + l := by
    have h2 : (0 : ℝ) ≤ m := Nat.cast_nonneg m
    have h3 : (0 : ℝ) ≤ k := Nat.cast_nonneg k
    have h4 : (0 : ℝ) ≤ l := Nat.cast_nonneg l
    linarith
  rw [sfact, sfact, h1, Gamma_ratio_eq_prod _ l hpos, ratioQ, Rat.cast_prod]
  exact Finset.prod_congr rfl fun i _ => by push_cast; ring

theorem SB_eq_SBq (l m j k : ℕ) : SB l m j k = (SBq l m j k : ℝ) := by
  rw [SB, sfact_ratio, SBq]
  push_cast
  ring

theorem SC_eq_SCq (p q k : ℕ) (hp : p % 2 = 0) (hq : q % 2 = 0) (hk : k % 2 = 0)
    (hqp : q ≤ p) (hpk : p ≤ k) : SC p q k = (SCq p q k : ℝ) := by
  obtain ⟨a, rfl⟩ := Nat.dvd_of_mod_eq_zero hp
  obtain ⟨b, rfl⟩ := Nat.dvd_of_mod_eq_zero hq
  obtain ⟨c, rfl⟩ := Nat.dvd_of_mod_eq_zero hk
  have hba : b ≤ a := by omega
  have hac : a ≤ c := by omega
  have g1 : 2 * c / 2 = c := by omega
  have g2 : 2 * b / 2 = b := by omega
  have g3 : (2 * c - 2 * a) / 2 = c - a := by omega
  have g4 : (2 * a - 2 * b) / 2 = a - b := by omega
  have f1 : ((2 * c : ℕ) : ℝ) / 2 = ((c : ℕ) : ℝ) := by push_cast; ring
  have f2 : ((2 * b : ℕ) : ℝ) / 2 = ((b : ℕ) : ℝ) := by push_cast; ring
  have f3 : (((2 * c : ℕ) : ℝ) - ((2 * a : ℕ) : ℝ)) / 2 = ((c - a : ℕ) : ℝ) := by
    push_cast [hac]; ring
  have f4 : (((2 * a : ℕ) : ℝ) - ((2 * b : ℕ) : ℝ)) / 2 = ((a - b : ℕ) : ℝ) := by
    push_cast [hba]; ring
  rw [SC, SCq, g1, g2, g3, g4, f1, f2, f3, f4, sfact, sfact, sfact, sfact,
    Real.Gamma_nat_eq_factorial, Real.Gamma_nat_eq_factorial,
    Real.Gamma_nat_eq_factorial, Real.Gamma_nat_eq_factorial]
  push_cast
  ring

/-- Index set of python's `range(0, n, 2)`: the even numbers below `n`. -/
def evens (n : ℕ) : Finset ℕ := (Finset.range n).filter (fun t => t % 2 = 0)

/-- Index set of python's `range(1, n, 2)`: the odd numbers below `n`. -/
def odds (n : ℕ) : Finset ℕ := (Finset.range n).filter (fun t => t % 2 = 1)

/-- The `m >= 0` branch of the notebook's `Y(l, m, x, y)`, with `M = m`:
the four nested even/odd-parity sums accumulating
`(-1)^((j+p)/2) * SA * SB * SC * x^(m-j+p-q) * y^(j+q)`, the odd-`k` inner
sums carrying an extra factor `z = sqrt(1 - x^2 - y^2)`. -/
noncomputable def Ypos (l M : ℕ) : Poly :=
  ∑ j ∈ evens (M + 1),
    ((∑ k ∈ evens (l - M + 1), ∑ p ∈ evens (k + 1), ∑ q ∈ evens (p + 1),
        monoP (M - j + p - q, j + q, 0)
          ((-1) ^ ((j + p) / 2) * SA l M * SB l M j k * SC p q k)) +
      (∑ k ∈ odds (l - M + 1), ∑ p ∈ evens k, ∑ q ∈ evens (p + 1),
        monoP (M - j + p - q, j + q, 1)
          ((-1) ^ ((j + p) / 2) * SA l M * SB l M j k * SC p q (k - 1))))

/-- The `m < 0` branch of the notebook's `Y(l, m, x, y)`, with `M = abs(m)`:
as `Ypos` but summing over odd `j` with sign `(-1)^((j+p-1)/2)`. -/
noncomputable def Yneg (l M : ℕ) : Poly :=
  ∑ j ∈ odds (M + 1),
    ((∑ k ∈ evens (l - M + 1), ∑ p ∈ evens (k + 1), ∑ q ∈ evens (p + 1),
        monoP (M - j + p - q, j + q, 0)
          ((-1) ^ ((j + p - 1) / 2) * SA l M * SB l M j k * SC p q k)) +
      (∑ k ∈ odds (l - M + 1), ∑ p ∈ evens k, ∑ q ∈ evens (p + 1),
        monoP (M - j + p - q, j + q, 1)
          ((-1) ^ ((j + p - 1) / 2) * SA l M * SB l M j k * SC p q (k - 1))))

/-- The notebook's `Y(l, m, x, y)`: the real spherical harmonic of degree
`l` and order `m` as a symbolic expression in `x`, `y` and
`z = sqrt(1 - x^2 - y^2)`. -/
noncomputable def Y (l : ℕ) (m : ℤ) : Poly :=
  if 0 ≤ m then Ypos l m.toNat else Yneg l m.natAbs

/-- Rational coefficient function: `Ypos` with the common factor `SA l M`
removed (see `Ypos_apply`). -/
def monoQ (t : Mono) (c : ℚ) : Mono → ℚ := fun v => if v = t then c else 0

/-- Rational counterpart of `Ypos` (the factor `SA l M` removed). -/
def Yqpos (l M : ℕ) : Mono → ℚ :=
  ∑ j ∈ evens (M + 1),
    ((∑ k ∈ evens (l - M + 1), ∑ p ∈ evens (k + 1), ∑ q ∈ evens (p + 1),
        monoQ (M - j + p - q, j + q, 0)
          ((-1) ^ ((j + p) / 2) * SBq l M j k * SCq p q k)) +
      (∑ k ∈ odds (l - M + 1), ∑ p ∈ evens k, ∑ q ∈ evens (p + 1),
        monoQ (M - j + p - q, j + q, 1)
          ((-1) ^ ((j + p) / 2) * SBq l M j k * SCq p q (k - 1))))

/-- Rational counterpart of `Yneg` (the factor `SA l M` removed). -/
def Yqneg (l M : ℕ) : Mono → ℚ :=
  ∑ j ∈ odds (M + 1),
    ((∑ k ∈ evens (l - M + 1), ∑ p ∈ evens (k + 1), ∑ q ∈ evens (p + 1),
        monoQ (M - j + p - q, j + q, 0)
          ((-1) ^ ((j + p - 1) / 2) * SBq l M j k * SCq p q k)) +
      (∑ k ∈ odds (l - M + 1), ∑ p ∈ evens k, ∑ q ∈ evens (p + 1),
        monoQ (M - j + p - q, j + q, 1)
          ((-1) ^ ((j + p - 1) / 2) * SBq l M j k * SCq p q (k - 1))))

/-- Rational counterpart of `Y` (the factor `SA l (abs m)` removed). -/
def Yq (l : ℕ) (m : ℤ) : Mono → ℚ :=
  if 0 ≤ m then Yqpos l m.toNat else Yqneg l m.natAbs

theorem mem_evens {n t : ℕ} (h : t ∈ evens n) : t < n ∧ t % 2 = 0 := by
  simpa [evens, Finset.mem_filter, Finset.mem_range] using h

theorem mem_odds {n t : ℕ} (h : t ∈ odds n) : t < n ∧ t % 2 = 1 := by
  simpa [odds, Finset.mem_filter, Finset.mem_range] using h

theorem Ypos_apply (l M : ℕ) (t : Mono) :
    Ypos l M t = SA l M * (Yqpos l M t : ℝ) := by
  rw [Ypos, Yqpos]
  simp only [Finset.sum_apply, Pi.add_apply, Rat.cast_sum, Rat.cast_add,
    Finset.mul_sum, mul_add]
  refine Finset.sum_congr rfl fun j hj => ?_
  obtain ⟨hjM, hj2⟩ := mem_evens hj
  congr 1
  · refine Finset.sum_congr rfl fun k hk => ?_
    obtain ⟨hkl, hk2⟩ := mem_evens hk
    refine Finset.sum_congr rfl fun p hp => ?_
    obtain ⟨hpk, hp2⟩ := mem_evens hp
    refine Finset.sum_congr rfl fun q hq => ?_
    obtain ⟨hqp, hq2⟩ := mem_evens hq
    simp only [monoP, monoQ]
    split_ifs
    · rw [SB_eq_SBq, SC_eq_SCq p q k hp2 hq2 hk2 (by omega) (by omega)]
      push_cast
      ring
    · simp
  · refine Finset.sum_congr rfl fun k hk => ?_
    obtain ⟨hkl, hk2⟩ := mem_odds hk
    refine Finset.sum_congr rfl fun p hp => ?_
    obtain ⟨hpk, hp2⟩ := mem_evens hp
    refine Finset.sum_congr rfl fun q hq => ?_
    obtain ⟨hqp, hq2⟩ := mem_evens hq
    simp only [monoP, monoQ]
    split_ifs
    · rw [SB_eq_SBq, SC_eq_SCq p q (k - 1) hp2 hq2 (by omega) (by omega) (by omega)]
      push_cast
      ring
    · simp

theorem Yneg_apply (l M : ℕ) (t : Mono) :
    Yneg l M t = SA l M * (Yqneg l M t : ℝ) := by
  rw [Yneg, Yqneg]
  simp only [Finset.sum_apply, Pi.add_apply, Rat.cast_sum, Rat.cast_add,
    Finset.mul_sum, mul_add]
  refine Finset.sum_congr rfl fun j hj => ?_
  obtain ⟨hjM, hj2⟩ := mem_odds hj
  congr 1
  · refine Finset.sum_congr rfl fun k hk => ?_
    obtain ⟨hkl, hk2⟩ := mem_evens hk
    refine Finset.sum_congr rfl fun p hp => ?_
    obtain ⟨hpk, hp2⟩ := mem_evens hp
    refine Finset.sum_congr rfl fun q hq => ?_
    obtain ⟨hqp, hq2⟩ := mem_evens hq
    simp only [monoP, monoQ]
    split_ifs
    · rw [SB_eq_SBq, SC_eq_SCq p q k hp2 hq2 hk2 (by omega) (by omega)]
      push_cast
      ring
    · simp
  · refine Finset.sum_congr rfl fun k hk => ?_
    obtain ⟨hkl, hk2⟩ := mem_odds hk
    refine Finset.sum_congr rfl fun p hp => ?_
    obtain ⟨hpk, hp2⟩ := mem_evens hp
    refine Finset.sum_congr rfl fun q hq => ?_
    obtain ⟨hqp, hq2⟩ := mem_evens hq
    simp only [monoP, monoQ]
    split_ifs
    · rw [SB_eq_SBq, SC_eq_SCq p q (k - 1) hp2 hq2 (by omega) (by omega) (by omega)]
      push_cast
      ring
    · simp

theorem Y_apply (l : ℕ) (m : ℤ) (t : Mono) :
    Y l m t = SA l m.natAbs * (Yq l m t : ℝ) := by
  rw [Y, Yq]
  by_cases hm : 0 ≤ m
  · have htn : m.toNat = m.natAbs := by omega
    rw [if_pos hm, if_pos hm, htn, Ypos_apply]
  · rw [if_neg hm, if_neg hm, Yneg_apply]

theorem subs_chain_eq_constPoly (e : Poly) :
    subsY0 (subsX0 (subsS0 e)) = constPoly (e (0, 0, 0)) := by
  funext v
  obtain ⟨a, b, c⟩ := v
  simp only [subsY0, subsX0, subsS0, constPoly, monoP]
  by_cases ha : a = 0 <;> by_cases hb : b = 0 <;> by_cases hc : c = 0 <;>
    simp [ha, hb, hc, Prod.ext_iff]

theorem Coefficient_eq_constPoly (e : Poly) (t : Mono) :
    Coefficient e t = constPoly (e t) := by
  unfold Coefficient
  rw [subs_chain_eq_constPoly]
  simp [coeffShift]

/-- The notebook's `p_Y(l, m, lmax)`: the list whose head is `Y(l, m)` with
`sqrt(1-x^2-y^2)`, `x`, `y` substituted by zero, followed by
`Coefficient(Y(l, m), poly_basis(n))` for `n = 1, ..., (lmax+1)^2 - 1`. -/
noncomputable def p_Y (l : ℕ) (m : ℤ) (lmax : ℕ) : List Poly :=
  subsY0 (subsX0 (subsS0 (Y l m))) ::
    (List.range ((lmax + 1) ^ 2 - 1)).map (fun t => Coefficient (Y l m) (pbMono (t + 1)))

/-- The `(l, m)` pairs in the order of the double loop in `A1`:
`l = 0, ..., lmax` and for each `l`, `m = -l, ..., l`. -/
def lmList (lmax : ℕ) : List (ℕ × ℤ) :=
  (List.range (lmax + 1)).flatMap fun l =>
    (List.range (2 * l + 1)).map fun (t : ℕ) => (l, (t - l : ℤ))

/-- The notebook's `A1(lmax, norm)` as a matrix of symbolic expressions:
the `n`-th column (written by `res[n] = p_Y(l, m, lmax)` in the `(l, m)`
double loop) is `p_Y` of the `n`-th `(l, m)` pair, and the whole matrix is
multiplied by `norm`. -/
noncomputable def A1 (lmax : ℕ) (norm : ℝ) :
    Matrix (Fin ((lmax + 1) ^ 2)) (Fin ((lmax + 1) ^ 2)) Poly :=
  Matrix.of fun i n =>
    norm • (p_Y ((lmList lmax).getD n (0, 0)).1 ((lmList lmax).getD n (0, 0)).2 lmax).getD i 0

/-- The matrix `A1(lmax, norm)` with each (constant, by `C10_p_Y_entries`)
symbolic entry read off as the real number it denotes. -/
noncomputable def A1R (lmax : ℕ) (norm : ℝ) :
    Matrix (Fin ((lmax + 1) ^ 2)) (Fin ((lmax + 1) ^ 2)) ℝ :=
  Matrix.of fun i n => A1 lmax norm i n (0, 0, 0)

theorem p_Y_length (l : ℕ) (m : ℤ) (lmax : ℕ) :
    (p_Y l m lmax).length = (lmax + 1) ^ 2 := by
  have h1 : 1 ≤ (lmax + 1) ^ 2 := Nat.one_le_pow _ _ (Nat.succ_pos lmax)
  simp [p_Y]
  omega

theorem p_Y_getD (l : ℕ) (m : ℤ) (lmax i : ℕ) (hi : i < (lmax + 1) ^ 2) :
    (p_Y l m lmax).getD i 0 = constPoly (Y l m (pbMono i)) := by
  match i with
  | 0 =>
      have hpb : pbMono 0 = (0, 0, 0) := by simp [pbMono]
      rw [p_Y, List.getD_cons_zero, subs_chain_eq_constPoly, hpb]
  | Nat.succ t =>
      have ht : t < (lmax + 1) ^ 2 - 1 := by omega
      rw [p_Y, List.getD_cons_succ, List.getD_eq_getElem?_getD, List.getElem?_map,
        List.getElem?_range ht]
      simp [Coefficient_eq_constPoly]

theorem lmList_length (lmax : ℕ) : (lmList lmax).length = (lmax + 1) ^ 2 := by
  induction lmax with
  | zero => rfl
  | succ lm ih =>
      rw [lmList, List.range_succ, List.flatMap_append, List.length_append, ← lmList, ih]
      simp
      ring

theorem lmList_getD (lmax n : ℕ) (hn : n < (lmax + 1) ^ 2) :
    (lmList lmax).getD n (0, 0) =
      (Nat.sqrt n, (n : ℤ) - Nat.sqrt n * Nat.sqrt n - Nat.sqrt n) := by
  induction lmax with
  | zero =>
      have hn0 : n = 0 := by omega
      subst hn0
      decide
  | succ lm ih =>
      rw [lmList, List.range_succ, List.flatMap_append, ← lmList]
      by_cases hcase : n < (lm + 1) ^ 2
      · rw [List.getD_eq_getElem?_getD, List.getElem?_append_left
          (by rw [lmList_length]; exact hcase), ← List.getD_eq_getElem?_getD, ih hcase]
      · have hlow : (lm + 1) ^ 2 ≤ n := le_of_not_lt hcase
        have e1 : (lm + 1 + 1) ^ 2 = lm * lm + 4 * lm + 4 := by ring
        have e2 : (lm + 1) ^ 2 = lm * lm + 2 * lm + 1 := by ring
        have e3 : (lm + 1) * (lm + 1) = lm * lm + 2 * lm + 1 := by ring
        have e4 : (lm + 2) * (lm + 2) = lm * lm + 4 * lm + 4 := by ring
        have hsq : Nat.sqrt n = lm + 1 := by
          have h1 : lm + 1 ≤ Nat.sqrt n := Nat.le_sqrt.mpr (by omega)
          have h2 : Nat.sqrt n < lm + 2 := Nat.sqrt_lt.mpr (by omega)
          omega
        rw [List.getD_eq_getElem?_getD, List.getElem?_append_right
          (by rw [lmList_length]; exact hlow), lmList_length]
        have hidx : n - (lm + 1) ^ 2 < 2 * (lm + 1) + 1 := by omega
        rw [List.flatMap_singleton, List.getElem?_map, List.getElem?_range hidx]
        have hcast : ((n - (lm + 1) ^ 2 : ℕ) : ℤ) = (n : ℤ) - ((lm + 1) ^ 2 : ℕ) :=
          Int.ofNat_sub hlow
        rw [hsq]
        simp only [Option.map_some', Option.getD_some, Prod.mk.injEq, true_and]
        rw [hcast]
        push_cast
        ring

theorem A1_apply (lmax : ℕ) (norm : ℝ) (i n : Fin ((lmax + 1) ^ 2)) :
    A1 lmax norm i n =
      norm • constPoly (Y (Nat.sqrt (n : ℕ))
        (((n : ℕ) : ℤ) - Nat.sqrt (n : ℕ) * Nat.sqrt (n : ℕ) - Nat.sqrt (n : ℕ))
        (pbMono (i : ℕ))) := by
  rw [A1, Matrix.of_apply, lmList_getD lmax (n : ℕ) n.isLt, p_Y_getD _ _ _ _ i.isLt]

theorem A1R_apply (lmax : ℕ) (norm : ℝ) (i n : Fin ((lmax + 1) ^ 2)) :
    A1R lmax norm i n =
      norm * Y (Nat.sqrt (n : ℕ))
        (((n : ℕ) : ℤ) - Nat.sqrt (n : ℕ) * Nat.sqrt (n : ℕ) - Nat.sqrt (n : ℕ))
        (pbMono (i : ℕ)) := by
  rw [A1R, Matrix.of_apply, A1_apply]
  simp [constPoly, monoP]

/-! ### The concrete case `lmax = 2` -/

/-- The notebook's default normalization `2 / sqrt(pi)`. -/
noncomputable def nrm : ℝ := 2 / Real.sqrt π

/-- The nine `(l, m)` pairs for `lmax = 2` in the canonical order
`(0,0), (1,-1), (1,0), (1,1), (2,-2), (2,-1), (2,0), (2,1), (2,2)`. -/
def lmtN (n : ℕ) : ℕ × ℤ :=
  if n = 0 then (0, 0)
  else if n = 1 then (1, -1)
  else if n = 2 then (1, 0)
  else if n = 3 then (1, 1)
  else if n = 4 then (2, -2)
  else if n = 5 then (2, -1)
  else if n = 6 then (2, 0)
  else if n = 7 then (2, 1)
  else (2, 2)

/-- The nine polynomial basis monomials for `lmax = 2`:
`1, x, z, y, x^2, xz, xy, yz, y^2`. -/
def mTabN (i : ℕ) : Mono :=
  if i = 0 then (0, 0, 0)
  else if i = 1 then (1, 0, 0)
  else if i = 2 then (0, 0, 1)
  else if i = 3 then (0, 1, 0)
  else if i = 4 then (2, 0, 0)
  else if i = 5 then (1, 0, 1)
  else if i = 6 then (1, 1, 0)
  else if i = 7 then (0, 1, 1)
  else (0, 2, 0)

theorem pb_tab : ∀ i : ℕ, i < 9 → pbMono i = mTabN i := by
  intro i hi
  interval_cases i <;> norm_num [pbMono, mTabN] <;> rfl

theorem lm_tab : ∀ n : ℕ, n < 9 →
    ((Nat.sqrt n : ℕ), ((n : ℤ) - Nat.sqrt n * Nat.sqrt n - Nat.sqrt n)) = lmtN n := by
  intro n hn
  interval_cases n <;> norm_num [lmtN]

theorem SBq_0000 : SBq 0 0 0 0 = 1 := by
  norm_num [SBq, ratioQ, Nat.factorial]

theorem SBq_1000 : SBq 1 0 0 0 = 0 := by
  norm_num [SBq, ratioQ, Finset.prod_range_succ, Nat.factorial]

theorem SBq_1001 : SBq 1 0 0 1 = 1 := by
  norm_num [SBq, ratioQ, Finset.prod_range_succ, Nat.factorial]

theorem SBq_1100 : SBq 1 1 0 0 = 1 := by
  norm_num [SBq, ratioQ, Finset.prod_range_succ, Nat.factorial]

theorem SBq_1110 : SBq 1 1 1 0 = 1 := by
  norm_num [SBq, ratioQ, Finset.prod_range_succ, Nat.factorial]

theorem SBq_2000 : SBq 2 0 0 0 = -(1/2) := by
  norm_num [SBq, ratioQ, Finset.prod_range_succ, Nat.factorial]

theorem SBq_2001 : SBq 2 0 0 1 = 0 := by
  norm_num [SBq, ratioQ, Finset.prod_range_succ, Nat.factorial]

theorem SBq_2002 : SBq 2 0 0 2 = 3/2 := by
  norm_num [SBq, ratioQ, Finset.prod_range_succ, Nat.factorial]

theorem SBq_2100 : SBq 2 1 0 0 = 0 := by
  norm_num [SBq, ratioQ, Finset.prod_range_succ, Nat.factorial]

theorem SBq_2101 : SBq 2 1 0 1 = 3 := by
  norm_num [SBq, ratioQ, Finset.prod_range_succ, Nat.factorial]

theorem SBq_2110 : SBq 2 1 1 0 = 0 := by
  norm_num [SBq, ratioQ, Finset.prod_range_succ, Nat.factorial]

theorem SBq_2111 : SBq 2 1 1 1 = 3 := by
  norm_num [SBq, ratioQ, Finset.prod_range_succ, Nat.factorial]

theorem SBq_2200 : SBq 2 2 0 0 = 3 := by
  norm_num [SBq, ratioQ, Finset.prod_range_succ, Nat.factorial]

theorem SBq_2210 : SBq 2 2 1 0 = 6 := by
  norm_num [SBq, ratioQ, Finset.prod_range_succ, Nat.factorial]

theorem SBq_2220 : SBq 2 2 2 0 = 3 := by
  norm_num [SBq, ratioQ, Finset.prod_range_succ, Nat.factorial]

theorem SCq_000 : SCq 0 0 0 = 1 := by
  norm_num [SCq, Nat.factorial]

theorem SCq_002 : SCq 0 0 2 = 1 := by
  norm_num [SCq, Nat.factorial]

theorem SCq_202 : SCq 2 0 2 = 1 := by
  norm_num [SCq, Nat.factorial]

theorem SCq_222 : SCq 2 2 2 = 1 := by
  norm_num [SCq, Nat.factorial]

/-- Twice the rational part of `A1(2)`: entry `(i, n)` is `2` times the
coefficient of basis monomial `i` in `Y` of the `n`-th `(l, m)` pair with
the overall factor `SA(l, abs m)` removed (rows `1, x, z, y, x^2, xz, xy,
yz, y^2` against columns `(0,0), (1,-1), ..., (2,2)`); the factor `2`
clears denominators so that the entries are integers. -/
def QcZ (i n : ℕ) : ℤ :=
  if i = 0 then (if n = 0 then 2 else if n = 6 then 2 else 0)
  else if i = 1 then (if n = 3 then 2 else 0)
  else if i = 2 then (if n = 2 then 2 else 0)
  else if i = 3 then (if n = 1 then 2 else 0)
  else if i = 4 then (if n = 6 then -3 else if n = 8 then 6 else 0)
  else if i = 5 then (if n = 7 then 6 else 0)
  else if i = 6 then (if n = 4 then 12 else 0)
  else if i = 7 then (if n = 5 then 6 else 0)
  else (if n = 6 then -3 else if n = 8 then -6 else 0)

/-- Six times the rational inverse of `QcZ / 2` (the factor `6` clears
denominators); `QcZ` and `QiZ` multiply to `12` times the identity. -/
def QiZ (n j : ℕ) : ℤ :=
  if n = 0 then (if j = 0 then 6 else if j = 4 then 2 else if j = 8 then 2 else 0)
  else if n = 1 then (if j = 3 then 6 else 0)
  else if n = 2 then (if j = 2 then 6 else 0)
  else if n = 3 then (if j = 1 then 6 else 0)
  else if n = 4 then (if j = 6 then 1 else 0)
  else if n = 5 then (if j = 7 then 2 else 0)
  else if n = 6 then (if j = 4 then -2 else if j = 8 then -2 else 0)
  else if n = 7 then (if j = 5 then 2 else 0)
  else (if j = 4 then 1 else if j = 8 then -1 else 0)

theorem QcZ_mul_QiZ : ∀ i j : Fin 9,
    (∑ n : Fin 9, QcZ i.val n.val * QiZ n.val j.val) = if i = j then 12 else 0 := by
  decide

theorem QiZ_mul_QcZ : ∀ i j : Fin 9,
    (∑ n : Fin 9, QiZ i.val n.val * QcZ n.val j.val) = if i = j then 12 else 0 := by
  decide

/-- Column scale factors of `A1R 2 nrm`: `kap n = nrm * SA (l_n, abs m_n)`. -/
noncomputable def kap (n : Fin 9) : ℝ := nrm * SA (lmtN n.val).1 (lmtN n.val).2.natAbs

/-- The rational part of `A1(2)` as computed from `Yq` (shown equal to the
explicit table `QcZ / 2` in `Qm_eq`). -/
def Qm (i n : ℕ) : ℚ := Yq (lmtN n).1 (lmtN n).2 (mTabN i)

theorem A1R2_eq (i n : Fin 9) : A1R 2 nrm i n = kap n * (Qm i.val n.val : ℝ) := by
  have hn : (n : ℕ) < 9 := n.isLt
  have hi : (i : ℕ) < 9 := i.isLt
  have h := lm_tab (n : ℕ) hn
  have h1 : Nat.sqrt (n : ℕ) = (lmtN (n : ℕ)).1 := congrArg Prod.fst h
  have h2 : (((n : ℕ) : ℤ) - Nat.sqrt (n : ℕ) * Nat.sqrt (n : ℕ) - Nat.sqrt (n : ℕ))
      = (lmtN (n : ℕ)).2 := congrArg Prod.snd h
  rw [A1R_apply, h2, h1, pb_tab (i : ℕ) hi, Y_apply, kap, Qm]
  ring

set_option maxHeartbeats 0 in
theorem Qm_eq : ∀ i n : ℕ, i < 9 → n < 9 → Qm i n = (QcZ i n : ℚ) / 2 := by
  intro i n hi hn
  interval_cases i <;> interval_cases n <;>
    (try simp [Qm, lmtN, mTabN, QcZ, Yq]) <;>
    (try simp only [Yqpos, Yqneg, evens, odds, Finset.sum_filter, Finset.sum_apply,
      Pi.add_apply, Finset.sum_range_succ, Finset.sum_range_zero]) <;>
    norm_num [monoQ, Prod.ext_iff,
      SBq_0000, SBq_1000, SBq_1001, SBq_1100, SBq_1110, SBq_2000, SBq_2001,
      SBq_2002, SBq_2100, SBq_2101, SBq_2110, SBq_2111, SBq_2200, SBq_2210,
      SBq_2220, SCq_000, SCq_002, SCq_202, SCq_222]

theorem SA_pos (l m : ℕ) : 0 < SA l m := by
  rw [SA]
  apply Real.sqrt_pos.mpr
  have h1 : (0 : ℝ) < Nat.factorial (l - m) := by
    exact_mod_cast Nat.factorial_pos (l - m)
  have h2 : (0 : ℝ) < Nat.factorial (l + m) := by
    exact_mod_cast Nat.factorial_pos (l + m)
  have h3 : (0 : ℝ) < 2 * (l : ℝ) + 1 := by positivity
  have h4 : (1 : ℝ) ≤ 2 - (if m = 0 then (1 : ℝ) else 0) := by split_ifs <;> norm_num
  have h5 := Real.pi_pos
  apply div_pos
  · have := mul_pos (mul_pos (lt_of_lt_of_le one_pos h4) h3) h1
    linarith [this]
  · positivity

theorem nrm_pos : 0 < nrm := by
  rw [nrm]
  have := Real.sqrt_pos.mpr Real.pi_pos
  positivity

theorem kap_pos (n : Fin 9) : 0 < kap n := mul_pos nrm_pos (SA_pos _ _)

theorem sqrtpi_mul_self : Real.sqrt π * Real.sqrt π = π :=
  Real.mul_self_sqrt Real.pi_pos.le

theorem sqrtpi_ne : Real.sqrt π ≠ 0 := (Real.sqrt_pos.mpr Real.pi_pos).ne'

theorem SA00 : SA 0 0 = 1 / (2 * Real.sqrt π) := by
  have h1 : SA 0 0 = Real.sqrt (1 / (4 * π)) := by
    rw [SA]
    norm_num [Nat.factorial]
  rw [h1, show (1 : ℝ) / (4 * π) = (1 / (2 * Real.sqrt π)) ^ 2 from by
    rw [div_pow, mul_pow, Real.sq_sqrt Real.pi_pos.le]; norm_num]
  exact Real.sqrt_sq (by positivity)

theorem SA11 : SA 1 1 = Real.sqrt 3 / (2 * Real.sqrt π) := by
  have h1 : SA 1 1 = Real.sqrt (3 / (4 * π)) := by
    rw [SA]
    congr 1
    norm_num [Nat.factorial]
    field_simp
    ring
  rw [h1, show (3 : ℝ) / (4 * π) = (Real.sqrt 3 / (2 * Real.sqrt π)) ^ 2 from by
    rw [div_pow, mul_pow, Real.sq_sqrt Real.pi_pos.le,
      Real.sq_sqrt (by norm_num : (0:ℝ) ≤ 3),
      div_eq_div_iff (by positivity) (by positivity)]
    ring]
  exact Real.sqrt_sq (by positivity)

theorem SA20 : SA 2 0 = Real.sqrt 5 / (2 * Real.sqrt π) := by
  have h1 : SA 2 0 = Real.sqrt (5 / (4 * π)) := by
    rw [SA]
    congr 1
    norm_num [Nat.factorial]
    field_simp
    ring
  rw [h1, show (5 : ℝ) / (4 * π) = (Real.sqrt 5 / (2 * Real.sqrt π)) ^ 2 from by
    rw [div_pow, mul_pow, Real.sq_sqrt Real.pi_pos.le,
      Real.sq_sqrt (by norm_num : (0:ℝ) ≤ 5),
      div_eq_div_iff (by positivity) (by positivity)]
    ring]
  exact Real.sqrt_sq (by positivity)

theorem SA22 : SA 2 2 = Real.sqrt 15 / (12 * Real.sqrt π) := by
  have h1 : SA 2 2 = Real.sqrt (5 / (48 * π)) := by
    rw [SA]
    congr 1
    norm_num [Nat.factorial]
    field_simp
    ring
  rw [h1, show (5 : ℝ) / (48 * π) = (Real.sqrt 15 / (12 * Real.sqrt π)) ^ 2 from by
    rw [div_pow, mul_pow, Real.sq_sqrt Real.pi_pos.le,
      Real.sq_sqrt (by norm_num : (0:ℝ) ≤ 15),
      div_eq_div_iff (by positivity) (by positivity)]
    ring]
  exact Real.sqrt_sq (by positivity)

theorem nrm_mul (a c : ℝ) : nrm * (a / (c * Real.sqrt π)) = 2 * a / (c * π) := by
  rw [nrm, div_mul_div_comm, mul_left_comm, sqrtpi_mul_self]

theorem kap0 : kap ⟨0, by norm_num⟩ = π⁻¹ := by
  have h : kap ⟨0, by norm_num⟩ = nrm * SA 0 0 := by norm_num [kap, lmtN]
  rw [h, SA00, nrm_mul, mul_one, inv_eq_one_div,
    div_eq_div_iff (by positivity) Real.pi_ne_zero]
  ring

theorem kap1 : kap ⟨1, by norm_num⟩ = Real.sqrt 3 / π := by
  have h : kap ⟨1, by norm_num⟩ = nrm * SA 1 1 := by norm_num [kap, lmtN]
  rw [h, SA11, nrm_mul, div_eq_div_iff (by positivity) Real.pi_ne_zero]
  ring

theorem kap3 : kap ⟨3, by norm_num⟩ = Real.sqrt 3 / π := by
  have h : kap ⟨3, by norm_num⟩ = nrm * SA 1 1 := by norm_num [kap, lmtN]
  rw [h, SA11, nrm_mul, div_eq_div_iff (by positivity) Real.pi_ne_zero]
  ring

theorem kap6 : kap ⟨6, by norm_num⟩ = Real.sqrt 5 / π := by
  have h : kap ⟨6, by norm_num⟩ = nrm * SA 2 0 := by norm_num [kap, lmtN]
  rw [h, SA20, nrm_mul, div_eq_div_iff (by positivity) Real.pi_ne_zero]
  ring

theorem kap8 : kap ⟨8, by norm_num⟩ = Real.sqrt 15 / (6 * π) := by
  have h : kap ⟨8, by norm_num⟩ = nrm * SA 2 2 := by norm_num [kap, lmtN]
  rw [h, SA22, nrm_mul, div_eq_div_iff (by positivity) (by positivity)]
  ring

/-- The notebook's `A1(2)` with its default norm, read as a real matrix
over `Fin 9` (definitionally `A1R 2 nrm`). -/
noncomputable def A1c : Matrix (Fin 9) (Fin 9) ℝ := A1R 2 nrm

theorem A1c_entry (i n : Fin 9) : A1c i n = kap n * (Qm i.val n.val : ℝ) :=
  A1R2_eq i n

/-- The explicit inverse of `A1c` (verified in `A1c_mul_Mc` and
`Mc_mul_A1c`). -/
noncomputable def Mc : Matrix (Fin 9) (Fin 9) ℝ :=
  Matrix.of fun n j => (kap n)⁻¹ * ((QiZ n.val j.val : ℝ) / 6)

theorem A1c_mul_Mc : A1c * Mc = 1 := by
  ext i j
  rw [Matrix.mul_apply]
  have h1 : ∀ n : Fin 9, A1c i n * Mc n j
      = ((QcZ i.val n.val * QiZ n.val j.val : ℤ) : ℝ) / 12 := by
    intro n
    rw [A1c_entry, Qm_eq i.val n.val i.isLt n.isLt, Mc, Matrix.of_apply]
    have hk : kap n ≠ 0 := (kap_pos n).ne'
    push_cast
    field_simp
    ring
  rw [Finset.sum_congr rfl fun n _ => h1 n, ← Finset.sum_div, ← Int.cast_sum,
    QcZ_mul_QiZ i j, Matrix.one_apply]
  by_cases h : i = j <;> simp [h]

theorem Mc_mul_A1c : Mc * A1c = 1 := by
  ext i j
  rw [Matrix.mul_apply]
  have h1 : ∀ n : Fin 9, Mc i n * A1c n j
      = (kap i)⁻¹ * kap j * (((QiZ i.val n.val * QcZ n.val j.val : ℤ) : ℝ) / 12) := by
    intro n
    rw [A1c_entry, Qm_eq n.val j.val n.isLt j.isLt, Mc, Matrix.of_apply]
    push_cast
    ring
  rw [Finset.sum_congr rfl fun n _ => h1 n, ← Finset.mul_sum, ← Finset.sum_div,
    ← Int.cast_sum, QiZ_mul_QcZ i j, Matrix.one_apply]
  by_cases h : i = j
  · rw [h]
    simp [inv_mul_cancel₀ (kap_pos j).ne']
  · simp [h]

theorem A1c_inv : A1c⁻¹ = Mc := Matrix.inv_eq_right_inv A1c_mul_Mc

theorem A1c_det_ne_zero : A1c.det ≠ 0 := by
  have hu : IsUnit A1c := ⟨⟨A1c, Mc, A1c_mul_Mc, Mc_mul_A1c⟩, rfl⟩
  exact ((Matrix.isUnit_iff_isUnit_det A1c).mp hu).ne_zero

theorem A1c_roundtrip : A1c * A1c⁻¹ = 1 ∧ A1c⁻¹ * A1c = 1 := by
  rw [A1c_inv]
  exact ⟨A1c_mul_Mc, Mc_mul_A1c⟩

/-! ### Inverse values of the column scales -/

theorem kapi0 : (kap 0)⁻¹ = π := by
  rw [show (0 : Fin 9) = ⟨0, by norm_num⟩ from rfl, kap0, inv_inv]

theorem kapi1 : (kap 1)⁻¹ = Real.sqrt 3 * π / 3 := by
  rw [show (1 : Fin 9) = ⟨1, by norm_num⟩ from rfl, kap1, inv_div,
    div_eq_div_iff (Real.sqrt_pos.mpr (by norm_num : (0:ℝ) < 3)).ne'
    (by norm_num : (3:ℝ) ≠ 0)]
  linear_combination (-π) * Real.mul_self_sqrt (by norm_num : (0:ℝ) ≤ 3)

theorem kapi3 : (kap ⟨3, by norm_num⟩)⁻¹ = Real.sqrt 3 * π / 3 := by
  rw [kap3, inv_div,
    div_eq_div_iff (Real.sqrt_pos.mpr (by norm_num : (0:ℝ) < 3)).ne'
    (by norm_num : (3:ℝ) ≠ 0)]
  linear_combination (-π) * Real.mul_self_sqrt (by norm_num : (0:ℝ) ≤ 3)

theorem kapi6 : (kap ⟨6, by norm_num⟩)⁻¹ = Real.sqrt 5 * π / 5 := by
  rw [kap6, inv_div,
    div_eq_div_iff (Real.sqrt_pos.mpr (by norm_num : (0:ℝ) < 5)).ne'
    (by norm_num : (5:ℝ) ≠ 0)]
  linear_combination (-π) * Real.mul_self_sqrt (by norm_num : (0:ℝ) ≤ 5)

theorem kapi8 : (kap ⟨8, by norm_num⟩)⁻¹ = 2 * Real.sqrt 15 * π / 5 := by
  rw [kap8, inv_div,
    div_eq_div_iff (Real.sqrt_pos.mpr (by norm_num : (0:ℝ) < 15)).ne'
    (by norm_num : (5:ℝ) ≠ 0)]
  linear_combination (-2 * π) * Real.mul_self_sqrt (by norm_num : (0:ℝ) ≤ 15)

theorem Mc_mulVec (v : Fin 9 → ℝ) (n : Fin 9) :
    (Mc *ᵥ v) n = ∑ j : Fin 9, (kap n)⁻¹ * ((QiZ n.val j.val : ℝ) / 6) * v j := by
  simp only [Matrix.mulVec, Matrix.dotProduct, Mc, Matrix.of_apply]

/-! ### The claims about the notebook -/

/-- Claim C2: for `lmax = 2`, applying the inverse of `A1(2)` (with the
default norm `2/sqrt(pi)`) to the indicator vector of the monomial `x^2`
(index 4 of the polynomial basis) gives the coefficient vector
`[pi/3, 0, 0, 0, 0, 0, -sqrt(5)*pi/15, 0, sqrt(15)*pi/15]` in the canonical
`(l, m)` ordering. -/
theorem C2_x2_coeffs :
    A1c⁻¹ *ᵥ (fun i : Fin 9 => if (i : ℕ) = 4 then (1 : ℝ) else 0) =
      fun n : Fin 9 =>
        if (n : ℕ) = 0 then π / 3
        else if (n : ℕ) = 6 then -(Real.sqrt 5 * π / 15)
        else if (n : ℕ) = 8 then Real.sqrt 15 * π / 15 else 0 := by
  rw [A1c_inv]
  funext n
  rw [Mc_mulVec]
  fin_cases n <;> norm_num [Fin.sum_univ_succ, QiZ, kapi0, kapi6, kapi8] <;> ring

/-- Claim C3 (counterexample): applying the inverse of `A1(2)` to the
indicator vector of basis index 3 — where the spec places the monomial `x`,
though index 3 holds `y` — gives the value `sqrt(3)*pi/3` at index 1 (the
`Y_{1,-1}` slot) and `0` at index 3 (the `Y_{1,1}` slot), so its only
nonzero entry is not at the `Y_{1,1}` slot as claimed. -/
theorem C3_counterexample :
    (A1c⁻¹ *ᵥ (fun i : Fin 9 => if (i : ℕ) = 3 then (1 : ℝ) else 0)) ⟨1, by norm_num⟩ =
        Real.sqrt 3 * π / 3 ∧
      (A1c⁻¹ *ᵥ (fun i : Fin 9 => if (i : ℕ) = 3 then (1 : ℝ) else 0)) ⟨3, by norm_num⟩ = 0 ∧
      Real.sqrt 3 * π / 3 ≠ 0 := by
  refine ⟨?_, ?_, ?_⟩
  · rw [A1c_inv, Mc_mulVec]
    norm_num [Fin.sum_univ_succ, QiZ, kapi1]
  · rw [A1c_inv, Mc_mulVec]
    norm_num [Fin.sum_univ_succ, QiZ]
  · positivity

/-- Claim C3 (amended): the monomial `x` sits at index 1 of the polynomial
basis (index 3 holds `y`); applying the inverse of `A1(2)` to the indicator
vector of index 1 gives the vector whose only nonzero entry is
`sqrt(3)*pi/3` at the `Y_{1,1}` slot (index 3). -/
theorem C3_amended :
    A1c⁻¹ *ᵥ (fun i : Fin 9 => if (i : ℕ) = 1 then (1 : ℝ) else 0) =
      fun n : Fin 9 => if (n : ℕ) = 3 then Real.sqrt 3 * π / 3 else 0 := by
  rw [A1c_inv]
  funext n
  rw [Mc_mulVec]
  fin_cases n <;> norm_num [Fin.sum_univ_succ, QiZ, kapi3]

/-- Claim C4: for `lmax = 2`, applying the inverse of `A1(2)` to the
indicator vector `[1,0,0,0,0,0,0,0,0]` of the constant monomial gives
exactly `[pi,0,0,0,0,0,0,0,0]`. -/
theorem C4_one_coeffs :
    A1c⁻¹ *ᵥ (fun i : Fin 9 => if (i : ℕ) = 0 then (1 : ℝ) else 0) =
      fun n : Fin 9 => if (n : ℕ) = 0 then π else 0 := by
  rw [A1c_inv]
  funext n
  rw [Mc_mulVec]
  fin_cases n <;> norm_num [Fin.sum_univ_succ, QiZ, kapi0]

/-- Claim C5: `poly_basis n` is the monomial `x^i y^j s^k` (`s` the
square-root factor) with `l = floor(sqrt n)` (which equals `Nat.sqrt n`),
`m = n - l^2 - l`, `mu = l - m`, `nu = l + m`, and
`(i, j, k) = (mu/2, nu/2, 0)` for even `nu`,
`((mu-1)/2, (nu-1)/2, 1)` for odd `nu`; in particular `poly_basis 0 = 1`. -/
theorem C5_poly_basis (n : ℕ) :
    ⌊Real.sqrt (n : ℝ)⌋ = (Nat.sqrt n : ℤ) ∧
      (let l : ℤ := Nat.sqrt n
       let m : ℤ := (n : ℤ) - l * l - l
       let mu : ℤ := l - m
       let nu : ℤ := l + m
       poly_basis n = monoP (if nu % 2 = 0
         then ((mu / 2).toNat, (nu / 2).toNat, 0)
         else (((mu - 1) / 2).toNat, ((nu - 1) / 2).toNat, 1)) 1) ∧
      poly_basis 0 = constPoly 1 := by
  refine ⟨Real.floor_real_sqrt_eq_nat_sqrt, rfl, ?_⟩
  have h0 : pbMono 0 = (0, 0, 0) := by simp [pbMono]
  rw [poly_basis, h0, constPoly]

/-- `SB(l, 0, j, k)` vanishes for odd `l` and even `k ≤ l`: the guarded
factorial ratio has its factor at index `(l-k-1)/2` equal to zero. -/
theorem SBq_odd_zero (l j k : ℕ) (hl : l % 2 = 1) (hk : k % 2 = 0)
    (hkl : k < l + 1) : SBq l 0 j k = 0 := by
  have hc : ((l - k - 1 : ℕ) : ℚ) = (l : ℚ) - k - 1 := by
    rw [Nat.sub_sub, Nat.cast_sub (by omega : k + 1 ≤ l)]
    push_cast
    ring
  have hhalf : (((l - k - 1) / 2 : ℕ) : ℚ) = ((l : ℚ) - k - 1) / 2 := by
    have h2 : 2 * ((l - k - 1) / 2) = l - k - 1 := by omega
    have h4 : ((2 * ((l - k - 1) / 2) : ℕ) : ℚ) = ((l - k - 1 : ℕ) : ℚ) := by rw [h2]
    rw [hc] at h4
    push_cast at h4
    linarith
  have hzero : ratioQ l 0 k = 0 := by
    simp only [ratioQ]
    apply Finset.prod_eq_zero (Finset.mem_range.mpr (show (l - k - 1) / 2 < l by omega))
    rw [hhalf]
    push_cast
    ring
  simp only [SBq]
  rw [hzero, mul_zero]

/-- At the origin `x = y = s = 0` the rational part of `Y(l, m)` vanishes
except when `m = 0` with even `l`: for `m > 0` every monomial has total
`x`/`y` degree at least `m`, for `m < 0` every monomial carries the odd power
`y^(j+q)` with `j` odd, and for `m = 0` with odd `l` the weight
`SB(l, 0, 0, k)` itself vanishes (`SBq_odd_zero`). -/
theorem Yq_origin (l : ℕ) (m : ℤ) (h : ¬(m = 0 ∧ l % 2 = 0)) :
    Yq l m (0, 0, 0) = 0 := by
  rcases lt_trichotomy m 0 with hneg | hzero | hpos
  · rw [Yq, if_neg (not_le.mpr hneg)]
    simp only [Yqneg, Finset.sum_apply, Pi.add_apply, monoQ]
    apply Finset.sum_eq_zero
    intro j hj
    obtain ⟨hjlt, hj2⟩ := mem_odds hj
    refine (congrArg₂ (· + ·) ?_ ?_).trans (add_zero 0)
    · exact Finset.sum_eq_zero fun k hk => Finset.sum_eq_zero fun p hp =>
        Finset.sum_eq_zero fun q hq =>
          if_neg (by rw [Prod.mk.injEq, Prod.mk.injEq]; omega)
    · exact Finset.sum_eq_zero fun k hk => Finset.sum_eq_zero fun p hp =>
        Finset.sum_eq_zero fun q hq =>
          if_neg (by rw [Prod.mk.injEq, Prod.mk.injEq]; omega)
  · subst hzero
    have hl : l % 2 = 1 := by
      rcases Nat.mod_two_eq_zero_or_one l with h0 | h1
      · exact absurd ⟨rfl, h0⟩ h
      · exact h1
    rw [Yq, if_pos le_rfl]
    simp only [Int.toNat_zero, Yqpos, Finset.sum_apply, Pi.add_apply, monoQ]
    apply Finset.sum_eq_zero
    intro j hj
    have hj0 : j = 0 := by
      have := mem_evens hj
      omega
    subst hj0
    refine (congrArg₂ (· + ·) ?_ ?_).trans (add_zero 0)
    · refine Finset.sum_eq_zero fun k hk => ?_
      obtain ⟨hklt, hk2⟩ := mem_evens hk
      refine Finset.sum_eq_zero fun p hp => Finset.sum_eq_zero fun q hq => ?_
      split_ifs
      · rw [SBq_odd_zero l 0 k hl hk2 (by omega), mul_zero, zero_mul]
      · rfl
    · exact Finset.sum_eq_zero fun k hk => Finset.sum_eq_zero fun p hp =>
        Finset.sum_eq_zero fun q hq =>
          if_neg (by rw [Prod.mk.injEq, Prod.mk.injEq]; omega)
  · rw [Yq, if_pos hpos.le]
    simp only [Yqpos, Finset.sum_apply, Pi.add_apply, monoQ]
    apply Finset.sum_eq_zero
    intro j hj
    refine (congrArg₂ (· + ·) ?_ ?_).trans (add_zero 0)
    · exact Finset.sum_eq_zero fun k hk => Finset.sum_eq_zero fun p hp =>
        Finset.sum_eq_zero fun q hq =>
          if_neg (by rw [Prod.mk.injEq, Prod.mk.injEq]; omega)
    · exact Finset.sum_eq_zero fun k hk => Finset.sum_eq_zero fun p hp =>
        Finset.sum_eq_zero fun q hq =>
          if_neg (by rw [Prod.mk.injEq, Prod.mk.injEq]; omega)

/-- Claim C6 (counterexample): `Y(2, 0)` evaluated at the origin equals
`SA(2, 0) ≠ 0`, although `l = 2 > 0`: the `m = 0`, even-`l` harmonics keep a
constant term. -/
theorem C6_counterexample : Y 2 0 (0, 0, 0) ≠ 0 := by
  have h1 : Yq 2 0 (0, 0, 0) = 1 := by
    have h := Qm_eq 0 6 (by norm_num) (by norm_num)
    rw [Qm] at h
    norm_num [lmtN, mTabN, QcZ] at h
    exact h
  rw [Y_apply, h1]
  simp only [Rat.cast_one, mul_one]
  exact (SA_pos 2 _).ne'

/-- Claim C6 (amended): with `|m| ≤ l`, `Y(l, m)` at the origin is `0`
except when `m = 0` and `l` is even; for `l = 0` it equals
`1/(2 sqrt(pi))`. -/
theorem C6_amended (l : ℕ) (m : ℤ) (hm : m.natAbs ≤ l) :
    (¬(m = 0 ∧ l % 2 = 0) → Y l m (0, 0, 0) = 0) ∧
      (l = 0 → Y l m (0, 0, 0) = 1 / (2 * Real.sqrt π)) := by
  constructor
  · intro h
    rw [Y_apply, Yq_origin l m h]
    simp
  · intro hl
    subst hl
    have hm0 : m = 0 := by omega
    subst hm0
    have h1 : Yq 0 0 (0, 0, 0) = 1 := by
      have h := Qm_eq 0 0 (by norm_num) (by norm_num)
      rw [Qm] at h
      norm_num [lmtN, mTabN, QcZ] at h
      exact h
    rw [Y_apply, h1]
    simp only [Rat.cast_one, mul_one, Int.natAbs_zero]
    exact SA00

/-- Claim C6 witness: the amended statement at `(l, m) = (1, 0)` and at
`(l, m) = (0, 0)`. -/
theorem C6_amended_witness :
    Y 1 0 (0, 0, 0) = 0 ∧ Y 0 0 (0, 0, 0) = 1 / (2 * Real.sqrt π) :=
  ⟨(C6_amended 1 0 (by omega)).1 (by omega), (C6_amended 0 0 (by omega)).2 rfl⟩

/-- Claim C7 (counterexample): at `(l, m, j, k) = (1, 1, 0, 0)` the
denominator factorial argument `(-l+m+k-1)/2 = -1/2` is negative and not an
integer, yet `SB(1,1,0,0) = 1`, not `0`: sympy's `factorial` is finite at
`-1/2` (it is `Gamma(1/2)`), so a negative non-integer argument does not
zero the ratio here, refuting the claimed "negative or non-integer"
characterization of the zero case. -/
theorem C7_counterexample :
    ((-(1 : ℝ) + 1 + 0 - 1) / 2 < 0) ∧
      (∀ z : ℤ, (-(1 : ℝ) + 1 + 0 - 1) / 2 ≠ (z : ℝ)) ∧ SB 1 1 0 0 = 1 := by
  refine ⟨by norm_num, fun z hz => ?_, ?_⟩
  · have h3 : (2 : ℝ) * z = -1 := by
      rw [← hz]
      norm_num
    have h4 : (2 * z : ℤ) = -1 := by exact_mod_cast h3
    omega
  · rw [SB_eq_SBq, SBq_1100, Rat.cast_one]

/-- Claim C7 (amended): whenever the denominator factorial argument
`(-l+m+k-1)/2` is a negative integer `d` — the poles of the Gamma function,
sympy's `zoo` — the guarded ratio in `SB` is zero, so
`SB(l, m, j, k) = 0` and no error propagates. -/
theorem C7_amended (l m j k : ℕ) (d : ℤ) (hd : d < 0)
    (h : (-(l : ℚ) + m + k - 1) / 2 = (d : ℚ)) : SB l m j k = 0 := by
  have h2 : 2 * d = -(l : ℤ) + m + k - 1 := by
    have h3 : (2 : ℚ) * d = -(l : ℚ) + m + k - 1 := by
      rw [← h]
      ring
    exact_mod_cast h3
  have hc2 : (((-d - 1).toNat : ℕ) : ℚ) = -(d : ℚ) - 1 := by
    have h4 : ((-d - 1).toNat : ℤ) = -d - 1 := Int.toNat_of_nonneg (by omega)
    have h5 := congrArg (fun t : ℤ => (t : ℚ)) h4
    push_cast at h5
    exact h5
  have hzero : ratioQ l m k = 0 := by
    simp only [ratioQ]
    apply Finset.prod_eq_zero (Finset.mem_range.mpr (show (-d - 1).toNat < l by omega))
    rw [h, hc2]
    ring
  have hS : SBq l m j k = 0 := by
    simp only [SBq]
    rw [hzero, mul_zero]
  rw [SB_eq_SBq, hS, Rat.cast_zero]

/-- Claim C7 witness: `SB(1, 0, 0, 0) = 0`, where the denominator factorial
argument is `(-1+0+0-1)/2 = -1`. -/
theorem C7_amended_witness : SB 1 0 0 0 = 0 :=
  C7_amended 1 0 0 0 (-1) (by norm_num) (by norm_num)

/-- Claim C8 (counterexample): at `lmax = 2` with the default norm, entry
`(0, 6)` of `A1(2)` is `nrm * SA(2, 0) ≠ 0` (column 6 holds the constant
term of `Y(2, 0)`), while the claimed row-filling value
`nrm * p_Y(l(0), m(0), 2)[6] = nrm * Coefficient(Y(0,0), x*y)` is `0`:
`res[n] = p_Y(...)` writes the columns of the sympy matrix, not its rows. -/
theorem C8_counterexample :
    A1c ⟨0, by norm_num⟩ ⟨6, by norm_num⟩ ≠
      nrm * ((p_Y 0 0 2).getD 6 0) (0, 0, 0) := by
  have hY : Y 0 0 (pbMono 6) = 0 := by
    have h := Qm_eq 6 0 (by norm_num) (by norm_num)
    rw [Qm] at h
    norm_num [lmtN, QcZ] at h
    rw [pb_tab 6 (by norm_num), Y_apply, h]
    simp
  have hp : ((p_Y 0 0 2).getD 6 0) (0, 0, 0) = 0 := by
    rw [p_Y_getD 0 0 2 6 (by norm_num), hY]
    simp [constPoly, monoP]
  rw [hp, mul_zero]
  have hq : Qm 0 6 = 1 := by
    rw [Qm_eq 0 6 (by norm_num) (by norm_num)]
    norm_num [QcZ]
  rw [A1c_entry]
  show kap ⟨6, by norm_num⟩ * ((Qm 0 6 : ℚ) : ℝ) ≠ 0
  rw [hq]
  simp only [Rat.cast_one, mul_one]
  exact (kap_pos _).ne'

/-- Claim C8 (amended): entry `(i, n)` of `A1(lmax, norm)` is entry `i` of
`norm • p_Y(l(n), m(n), lmax)`, with `(l(n), m(n))` the `n`-th pair of the
canonical order: `p_Y` fills the columns of the matrix, and the rows are
indexed by the basis monomials. -/
theorem C8_amended (lmax : ℕ) (norm : ℝ) (i n : ℕ)
    (hi : i < (lmax + 1) ^ 2) (hn : n < (lmax + 1) ^ 2) :
    A1 lmax norm ⟨i, hi⟩ ⟨n, hn⟩ =
      norm • (p_Y (Nat.sqrt n)
        ((n : ℤ) - Nat.sqrt n * Nat.sqrt n - Nat.sqrt n) lmax).getD i 0 := by
  show norm • ((p_Y ((lmList lmax).getD n (0, 0)).1
      ((lmList lmax).getD n (0, 0)).2 lmax).getD i 0) = _
  rw [lmList_getD lmax n hn]

/-- Claim C8 witness: the amended statement at `lmax = 1`, `norm = 2`,
`(i, n) = (2, 2)`. -/
theorem C8_amended_witness :
    A1 1 2 ⟨2, by norm_num⟩ ⟨2, by norm_num⟩ =
      (2 : ℝ) • (p_Y (Nat.sqrt 2)
        ((2 : ℤ) - Nat.sqrt 2 * Nat.sqrt 2 - Nat.sqrt 2) 1).getD 2 0 :=
  C8_amended 1 2 2 2 (by norm_num) (by norm_num)

/-- Claim C9: `Coefficient(e, t)` is the constant polynomial whose value is
the exact coefficient of `t` in `e`: substituting `s = 0`, `x = 0`, `y = 0`
into the shifted expression kills every residual occurrence of the basis
variables, leaving only the genuinely constant coefficient. -/
theorem C9_Coefficient (e : Poly) (t : Mono) : Coefficient e t = constPoly (e t) :=
  Coefficient_eq_constPoly e t

theorem smul_constPoly (a c : ℝ) : a • constPoly c = constPoly (a * c) := by
  funext v
  simp only [Pi.smul_apply, smul_eq_mul, constPoly, monoP]
  by_cases h : v = ((0, 0, 0) : Mono) <;> simp [h]

/-- Claim C10: `p_Y(l, m, lmax)` has exactly `(lmax+1)^2` entries, every
entry is a constant polynomial (no occurrence of `x`, `y` or the square-root
factor), and hence every entry of `A1(lmax, norm)` is the constant
polynomial of its real value `A1R lmax norm i n`. -/
theorem C10_p_Y_entries (l : ℕ) (m : ℤ) (lmax : ℕ) :
    (p_Y l m lmax).length = (lmax + 1) ^ 2 ∧
      (∀ i : ℕ, ∃ c : ℝ, (p_Y l m lmax).getD i 0 = constPoly c) ∧
      (∀ (norm : ℝ) (i n : Fin ((lmax + 1) ^ 2)),
        A1 lmax norm i n = constPoly (A1R lmax norm i n)) := by
  refine ⟨p_Y_length l m lmax, ?_, ?_⟩
  · intro i
    by_cases hi : i < (lmax + 1) ^ 2
    · exact ⟨Y l m (pbMono i), p_Y_getD l m lmax i hi⟩
    · refine ⟨0, ?_⟩
      rw [List.getD_eq_default]
      · funext v
        simp [constPoly, monoP]
      · rw [p_Y_length]
        omega
  · intro norm i n
    rw [A1_apply, A1R_apply, smul_constPoly]

end RMRev
